import Mathlib

/-!
Verification of the HLO sharding descriptor
(`tensorflow/compiler/xla/service/hlo_sharding.h`).

The header defines the representation (boolean flags `replicated_`,
`maximal_`, `tuple_`, a `tile_shape_`, a dense `tile_assignment_` array of
device ids, and a flattened `tuple_elements_` list) together with the inline
members (`Replicate`, `Tile`, the private constructors, `IsTuple`,
`IsReplicated`, `IsTileMaximal`, `operator==`).  Those are embedded here
directly from the source.  The out-of-line member bodies (`ToProto`,
`FromProto`, `Validate`, `UniqueDevice`, the tile indexing functions,
`GetTupleSharding`, `ExtractSingleSharding`, `Hash`) are not part of the
header; they are modelled from the specification and marked as such.
-/

namespace Xla

/-- Shapes as supplied by the external shape provider: an array shape carries
an element-type code, per-dimension extents and layout metadata (the deep
metadata ignored by compatibility), and a tuple shape carries a list of
element shapes. -/
inductive Shape where
  | array (elemType : Nat) (dims : List Nat) (layout : List Nat)
  | tup (elems : List Shape)

/-- The default-constructed `Shape()`: an invalid element type with no
dimensions. -/
def defaultShape : Shape := .array 0 [] []

/-- Dimensions of an array shape (`Shape::dimensions()`); a tuple shape has
none. -/
def shapeDims : Shape → List Nat
  | .array _ d _ => d
  | .tup _ => []

mutual

/-- `ShapeUtil::Compatible`: element-type, rank and dimension equivalence,
recursing through tuples; layout (deep metadata) is ignored. -/
def compatible : Shape → Shape → Bool
  | .array t1 d1 _, .array t2 d2 _ => t1 == t2 && d1 == d2
  | .tup e1, .tup e2 => compatibleList e1 e2
  | _, _ => false

def compatibleList : List Shape → List Shape → Bool
  | [], [] => true
  | a :: as, b :: bs => compatible a b && compatibleList as bs
  | _, _ => false

end

mutual

/-- Pre-order list of the array leaves of a shape (the leaf positions a
`ShapeTree` iterates over). -/
def shapeLeaves : Shape → List Shape
  | .array t d l => [.array t d l]
  | .tup es => shapeLeavesList es

def shapeLeavesList : List Shape → List Shape
  | [] => []
  | s :: ss => shapeLeaves s ++ shapeLeavesList ss

end

/-- The dense multi-dimensional `Array<int64>` container: its dimensions and
its elements flattened in row-major (major-to-minor) order.  `Array`
equality compares dimensions and elements. -/
structure IArray where
  dims : List Nat
  data : List Int
deriving DecidableEq

/-- The container invariant `Array<int64>` maintains by construction: the
element count is the product of the dimensions. -/
def IArray.wf (a : IArray) : Prop := a.data.length = a.dims.prod

/-- The sharding representation of the header: flags `replicated_`,
`maximal_`, `tuple_`, the tile shape, the tile-to-device assignment array,
and the flattened pre-order list of tuple leaf shardings. -/
inductive HloSharding where
  | mk (replicated maximal tuple : Bool) (tile_shape : Shape)
       (tile_assignment : IArray) (tuple_elements : List HloSharding)

def HloSharding.replicated_ : HloSharding → Bool
  | .mk r _ _ _ _ _ => r

def HloSharding.maximal_ : HloSharding → Bool
  | .mk _ m _ _ _ _ => m

def HloSharding.tuple_ : HloSharding → Bool
  | .mk _ _ tup _ _ _ => tup

def HloSharding.tile_shape_ : HloSharding → Shape
  | .mk _ _ _ ts _ _ => ts

def HloSharding.tile_assignment_ : HloSharding → IArray
  | .mk _ _ _ _ ta _ => ta

def HloSharding.tuple_elements_ : HloSharding → List HloSharding
  | .mk _ _ _ _ _ els => els

/-- The private default constructor: `replicated_(true), maximal_(true),
tuple_(false), tile_shape_(), tile_assignment_({0})`; `Replicate()` returns
it. -/
def HloSharding.Replicate : HloSharding :=
  .mk true true false defaultShape ⟨[0], []⟩ []

/-- The private single-device constructor used by `AssignDevice`:
`replicated_(false), maximal_(true), tuple_(false), tile_shape_(),
tile_assignment_({1}, device_id)`. -/
def HloSharding.AssignDevice (device_id : Int) : HloSharding :=
  .mk false true false defaultShape ⟨[1], [device_id]⟩ []

/-- `Tile(tile_shape, tile_assignment)`: the private tiled constructor,
`replicated_(false), maximal_(false), tuple_(false)` with the given tile
shape and assignment; no validation happens at construction time. -/
def HloSharding.Tile (tile_shape : Shape) (tile_assignment : IArray) :
    HloSharding :=
  .mk false false false tile_shape tile_assignment []

/-- The private tuple constructor: `replicated_(false), maximal_(false),
tuple_(true), tile_assignment_({0})` with the given flattened leaf
shardings; `tile_shape_` is default-constructed. -/
def HloSharding.TupleOf (tuple_shardings : List HloSharding) : HloSharding :=
  .mk false false true defaultShape ⟨[0], []⟩ tuple_shardings

/-- `IsTuple()`: returns the `tuple_` flag. -/
def HloSharding.IsTuple (s : HloSharding) : Bool := s.tuple_

mutual

/-- `IsReplicated()`: for a non-tuple sharding the `replicated_` flag; for a
tuple, `std::all_of` of the elements. -/
def HloSharding.IsReplicated : HloSharding → Bool
  | .mk r _ tup _ _ els => if tup then allReplicated els else r

def allReplicated : List HloSharding → Bool
  | [] => true
  | s :: ss => s.IsReplicated && allReplicated ss

end

mutual

/-- `IsTileMaximal()`: for a non-tuple sharding the `maximal_` flag; for a
tuple, `std::all_of` of the elements. -/
def HloSharding.IsTileMaximal : HloSharding → Bool
  | .mk _ m tup _ _ els => if tup then allTileMaximal els else m

def allTileMaximal : List HloSharding → Bool
  | [] => true
  | s :: ss => s.IsTileMaximal && allTileMaximal ss

end

mutual

/-- `operator==`: compares `replicated_`, `maximal_`,
`ShapeUtil::Compatible` of the tile shapes, the tile assignments, and the
tuple-element vectors element-wise with `operator==` itself.  The `tuple_`
flag is not compared. -/
def eqSharding : HloSharding → HloSharding → Bool
  | .mk r1 m1 _ ts1 ta1 es1, .mk r2 m2 _ ts2 ta2 es2 =>
    r1 == r2 && m1 == m2 && compatible ts1 ts2 && ta1 == ta2 &&
      eqShardingList es1 es2

def eqShardingList : List HloSharding → List HloSharding → Bool
  | [], [] => true
  | a :: as, b :: bs => eqSharding a b && eqShardingList as bs
  | _, _ => false

end

/-- The four variant tags of the data model: tuple when `tuple_` is set,
otherwise replicated, tile-maximal or tiled according to the flags. -/
inductive ShardTag where
  | replicated
  | tileMaximal
  | tiled
  | tupleTag
deriving DecidableEq

/-- The variant tag of a sharding value. -/
def tagOf : HloSharding → ShardTag
  | .mk r m tup _ _ _ =>
    if tup then .tupleTag
    else if r then .replicated
    else if m then .tileMaximal
    else .tiled

/-- Structural induction for shardings through the flattened tuple-element
list. -/
def hloInduction (motive : HloSharding → Prop)
    (h : ∀ r m tup ts ta els, (∀ x ∈ els, motive x) →
      motive (HloSharding.mk r m tup ts ta els)) :
    ∀ s, motive s
  | .mk r m tup ts ta els =>
    h r m tup ts ta els (fun x _ => hloInduction motive h x)
termination_by s => sizeOf s
decreasing_by
  rename_i hx
  have := List.sizeOf_lt_of_mem hx
  simp only [HloSharding.mk.sizeOf_spec]
  omega

/-- The protocol message kinds of `OpSharding`. -/
inductive OpShardingKind where
  | replicated
  | maximal
  | tupleKind
  | other
deriving DecidableEq

/-- The external protocol form `OpSharding`: a kind tag, a tile shape, the
tile-assignment dimensions and flattened contents, a device list, and
recursive tuple sub-messages. -/
inductive OpSharding where
  | mk (kind : OpShardingKind) (tile_shape : Shape)
       (tile_assignment_dimensions : List Nat)
       (tile_assignment_devices : List Int)
       (tuple_shardings : List OpSharding)

mutual

/-- Modelled from the spec: the body of `HloSharding::ToProto` is not in the
header.  Per the spec it emits the tag, the device list, the
tile-assignment dimensions and flattened contents, and recursive tuple
sub-messages: a tuple emits its children, a replicated sharding only its
tag, a maximal sharding its single device, and a tiled sharding its tile
shape plus assignment dimensions and flattened device contents. -/
def ToProto : HloSharding → OpSharding
  | .mk r m tup ts ta els =>
    if tup then .mk .tupleKind defaultShape [] [] (toProtoList els)
    else if r then .mk .replicated defaultShape [] [] []
    else if m then .mk .maximal defaultShape [] ta.data []
    else .mk .other ts ta.dims ta.data []

def toProtoList : List HloSharding → List OpSharding
  | [] => []
  | s :: ss => ToProto s :: toProtoList ss

end

mutual

/-- Modelled from the spec: the body of `HloSharding::FromProto` is not in
the header.  Per the spec it rebuilds the sharding from the protocol form
and rejects malformed messages (a maximal message without a device, a size
mismatch between the declared tile-assignment dimensions and the element
count, a tuple child that fails) with an error rather than producing an
inconsistent sharding. -/
def FromProto : OpSharding → Option HloSharding
  | .mk kind ts dims devs subs =>
    match kind with
    | .tupleKind =>
      match fromProtoList subs with
      | some els => some (HloSharding.TupleOf els)
      | none => none
    | .replicated => some HloSharding.Replicate
    | .maximal =>
      match devs with
      | d :: _ => some (HloSharding.AssignDevice d)
      | [] => none
    | .other =>
      if devs.length = dims.prod then some (HloSharding.Tile ts ⟨dims, devs⟩)
      else none

def fromProtoList : List OpSharding → Option (List HloSharding)
  | [] => some []
  | p :: ps =>
    match FromProto p, fromProtoList ps with
    | some s, some ss => some (s :: ss)
    | _, _ => none

end

/-- The shardings the public factories can build: `Replicate()`,
`AssignDevice(id)`, `Tile(tile_shape, tile_assignment)` with a well-formed
assignment array, and `Tuple` over constructible children. -/
inductive Constructible : HloSharding → Prop
  | replicate : Constructible HloSharding.Replicate
  | assignDevice (d : Int) : Constructible (HloSharding.AssignDevice d)
  | tile (ts : Shape) (ta : IArray) (h : ta.wf) :
      Constructible (HloSharding.Tile ts ta)
  | tuple (els : List HloSharding) (h : ∀ s ∈ els, Constructible s) :
      Constructible (HloSharding.TupleOf els)

/-- One mixing step of a structural hash. -/
def hashMix (a b : Nat) : Nat := a * 1000003 + b

mutual

/-- Hash of the compatibility class of a shape: mixes the element type and
the dimensions, recursing through tuples, and ignores layout — exactly the
data `ShapeUtil::Compatible` compares. -/
def hashShape : Shape → Nat
  | .array t d _ => hashMix 2 ((t :: d).foldl hashMix 0)
  | .tup es => hashMix 3 (hashShapeList es)

def hashShapeList : List Shape → Nat
  | [] => 5
  | s :: ss => hashMix (hashShape s) (hashShapeList ss)

end

/-- Structural hash of an assignment array: mixes the dimensions and the
flattened device ids. -/
def hashIArray (a : IArray) : Nat :=
  hashMix (a.dims.foldl hashMix 0)
    (a.data.foldl (fun acc d => hashMix acc d.natAbs) 0)

mutual

/-- Modelled from the spec: the body of `HloSharding::Hash` is not in the
header.  The spec requires a structural hash consistent with `operator==`,
so it combines exactly the components `operator==` compares: the
`replicated_` and `maximal_` flags, the compatibility class of the tile
shape, the tile assignment, and the tuple elements recursively. -/
def Hash : HloSharding → Nat
  | .mk r m _ ts ta els =>
    hashMix (cond r 1 0)
      (hashMix (cond m 1 0)
        (hashMix (hashShape ts) (hashMix (hashIArray ta) (hashList els))))

def hashList : List HloSharding → Nat
  | [] => 7
  | s :: ss => hashMix (Hash s) (hashList ss)

end

/-- Position of the first occurrence of a device id in the flattened
assignment contents. -/
def scanForDevice : List Int → Int → Option Nat
  | [], _ => none
  | a :: as, d => if a = d then some 0 else (scanForDevice as d).map (· + 1)

/-- Row-major linear position of a multi-dimensional index. -/
def flattenIndex : List Nat → List Nat → Nat
  | _ :: ds, i :: is => i * ds.prod + flattenIndex ds is
  | _, _ => 0

/-- Multi-dimensional index of a row-major linear position. -/
def unflattenIndex : List Nat → Nat → List Nat
  | [], _ => []
  | _ :: ds, p => (p / ds.prod) :: unflattenIndex ds (p % ds.prod)

/-- Modelled from the spec: the body of `HloSharding::TileIndexForDevice`
is not in the header.  Per the spec it is a contract error on a tuple
sharding; otherwise it scans `tile_assignment_` for the position holding
`device` and returns that position as a multi-dimensional tile index,
failing when the device is absent. -/
def TileIndexForDevice (s : HloSharding) (device : Int) :
    Option (List Nat) :=
  match s with
  | .mk _ _ tup _ ta _ =>
    if tup then none
    else (scanForDevice ta.data device).map (unflattenIndex ta.dims)

/-- Modelled from the spec: the body of `HloSharding::DeviceForTileIndex`
is not in the header.  Per the spec it is a contract error on a tuple or
replicated sharding; it returns the sole device of a tile-maximal sharding
and otherwise indexes `tile_assignment_` at the given tile index. -/
def DeviceForTileIndex (s : HloSharding) (index : List Nat) : Option Int :=
  match s with
  | .mk r m tup _ ta _ =>
    if tup then none
    else if r then none
    else if m then ta.data.head?
    else ta.data[flattenIndex ta.dims index]?

/-- Three-way component-wise combination, truncating at the shortest
list. -/
def zipWith3 (f : Nat → Nat → Nat → Nat) :
    List Nat → List Nat → List Nat → List Nat
  | a :: as, b :: bs, c :: cs => f a b c :: zipWith3 f as bs cs
  | _, _, _ => []

/-- Modelled from the spec: the body of `HloSharding::TileOffsetForDevice`
is not in the header.  Per the spec it is a contract error on a tuple
sharding; a tile-maximal sharding has the all-zero offset, and a tiled
sharding multiplies the tile index for `device` component-wise by the tile
shape to get the lower extent. -/
def TileOffsetForDevice (s : HloSharding) (valueDims : List Nat)
    (device : Int) : Option (List Nat) :=
  match s with
  | .mk _ m tup ts _ _ =>
    if tup then none
    else if m then some (List.replicate valueDims.length 0)
    else (TileIndexForDevice s device).map fun idx =>
      List.zipWith (fun i t => i * t) idx (shapeDims ts)

/-- Modelled from the spec: the body of `HloSharding::TileLimitForDevice`
is not in the header.  Per the spec it is a contract error on a tuple
sharding; a tile-maximal sharding has the full value shape as its limit,
and a tiled sharding's limit is `min(offset[i] + tile_shape[i],
value_shape[i])` component-wise — clamped to the true unpadded value
shape. -/
def TileLimitForDevice (s : HloSharding) (valueDims : List Nat)
    (device : Int) : Option (List Nat) :=
  match s with
  | .mk _ m tup ts _ _ =>
    if tup then none
    else if m then some valueDims
    else (TileOffsetForDevice s valueDims device).map fun off =>
      zipWith3 (fun o t v => min (o + t) v) off (shapeDims ts) valueDims

/-- Modelled from the spec: the body of `HloSharding::UniqueDevice` is not
in the header.  Per the spec it succeeds only when the sharding is
tile-maximal and not replicated (a tuple is a contract error), returning
that one device id, and fails otherwise. -/
def UniqueDevice (s : HloSharding) : Option Int :=
  match s with
  | .mk r m tup _ ta _ =>
    if tup then none
    else if r then none
    else if m then ta.data.head?
    else none

/-- Ceiling division: the number of tiles of extent `b` needed to cover an
extent `a`. -/
def natCeilDiv (a b : Nat) : Nat := (a + b - 1) / b

mutual

/-- Modelled from the spec: the body of `HloSharding::Validate` is not in
the header.  Per the spec a replicated sharding passes; a maximal sharding
requires its device id to be `< num_devices`; a tiled sharding requires
matching ranks, every device id `>= 0` and `< num_devices`, and a tile
assignment whose per-dimension extent does not exceed the number of tiles
implied by the shape and tile shape; a tuple sharding requires the child
count to equal the leaf count and recursively validates each child against
the corresponding leaf shape. -/
def validate : HloSharding → Shape → Int → Bool
  | .mk r m tup ts ta els, shape, num_devices =>
    if tup then
      decide (els.length = (shapeLeaves shape).length) &&
        validateList els (shapeLeaves shape) num_devices
    else if r then true
    else if m then ta.data.all (fun d => d < num_devices)
    else
      decide ((shapeDims ts).length = (shapeDims shape).length) &&
      decide (ta.dims.length = (shapeDims ts).length) &&
      ta.data.all (fun d => 0 ≤ d && d < num_devices) &&
      (ta.dims.zip ((shapeDims shape).zip (shapeDims ts))).all
        (fun p => p.1 ≤ natCeilDiv p.2.1 p.2.2)

def validateList : List HloSharding → List Shape → Int → Bool
  | [], [], _ => true
  | s :: ss, sh :: shs, num_devices =>
    validate s sh num_devices && validateList ss shs num_devices
  | _, _, _ => false

end

mutual

/-- The device ids a sharding references: none for a replicated sharding,
the assignment contents for a maximal or tiled sharding, and the union over
the children for a tuple. -/
def referencedDevices : HloSharding → List Int
  | .mk r _ tup _ ta els =>
    if tup then referencedDevicesList els
    else if r then []
    else ta.data

def referencedDevicesList : List HloSharding → List Int
  | [] => []
  | s :: ss => referencedDevices s ++ referencedDevicesList ss

end

/-- `RequiredLeaves(shape)`: the number of `tuple_elements_` entries needed
to fit the shape; a tuple shape with zero leaves still requires one
placeholder entry. -/
def RequiredLeaves (shape : Shape) : Nat :=
  max 1 (shapeLeaves shape).length

/-- Modelled from the spec: the body of `HloSharding::GetTupleSharding` is
not in the header.  Per the spec it is an idempotent promotion: a tuple
sharding returns itself after checking its leaf count against the shape,
and a non-tuple sharding is replicated across every leaf of the shape to
build a tuple sharding. -/
def GetTupleSharding (s : HloSharding) (shape : Shape) :
    Option HloSharding :=
  if s.tuple_ then
    if s.tuple_elements_.length = RequiredLeaves shape then some s else none
  else some (HloSharding.TupleOf (List.replicate (RequiredLeaves shape) s))

/-- Modelled from the spec: the body of
`HloSharding::ExtractSingleSharding` is not in the header.  Per the spec a
non-tuple sharding returns itself; a tuple returns its common child when
every child compares equal to the first, and otherwise the empty
optional. -/
def ExtractSingleSharding (s : HloSharding) : Option HloSharding :=
  if s.tuple_ then
    match s.tuple_elements_ with
    | [] => none
    | e :: rest => if rest.all (fun x => eqSharding e x) then some e else none
  else some s

/-- Structural induction for shapes through the tuple-element list. -/
def shapeInduction (motive : Shape → Prop)
    (ha : ∀ t d l, motive (Shape.array t d l))
    (ht : ∀ es, (∀ x ∈ es, motive x) → motive (Shape.tup es)) :
    ∀ s, motive s
  | .array t d l => ha t d l
  | .tup es => ht es (fun x _ => shapeInduction motive ha ht x)
termination_by s => sizeOf s
decreasing_by
  rename_i hx
  have := List.sizeOf_lt_of_mem hx
  simp only [Shape.tup.sizeOf_spec]
  omega

theorem compatibleList_refl_of (es : List Shape)
    (h : ∀ x ∈ es, compatible x x = true) : compatibleList es es = true := by
  induction es with
  | nil => rfl
  | cons a as ih =>
    simp only [compatibleList, Bool.and_eq_true]
    exact ⟨h a (by simp), ih (fun x hx => h x (by simp [hx]))⟩

theorem compatible_refl (s : Shape) : compatible s s = true := by
  induction s using shapeInduction with
  | ha t d l => simp [compatible]
  | ht es ih => simpa [compatible] using compatibleList_refl_of es ih

theorem eqShardingList_refl_of (es : List HloSharding)
    (h : ∀ x ∈ es, eqSharding x x = true) : eqShardingList es es = true := by
  induction es with
  | nil => rfl
  | cons a as ih =>
    simp only [eqShardingList, Bool.and_eq_true]
    exact ⟨h a (by simp), ih (fun x hx => h x (by simp [hx]))⟩

theorem eqSharding_refl (s : HloSharding) : eqSharding s s = true := by
  induction s using hloInduction with
  | h r m tup ts ta els ih =>
    simp [eqSharding, compatible_refl, eqShardingList_refl_of els ih]

theorem eqShardingList_iff (as bs : List HloSharding) :
    eqShardingList as bs = true ↔
      List.Forall₂ (fun a b => eqSharding a b = true) as bs := by
  induction as generalizing bs with
  | nil => cases bs <;> simp [eqShardingList]
  | cons a as ih =>
    cases bs with
    | nil => simp [eqShardingList]
    | cons b bs =>
      simp [eqShardingList, List.forall₂_cons, ih]

/-- Claim C9: for a tuple sharding whose flattened element list is empty (a
state the representation permits for empty tuples), `IsReplicated()` and
`IsTileMaximal()` both return true vacuously, even though no child sharding
exists. -/
theorem claim_c9_empty_tuple_predicates (r m : Bool) (ts : Shape)
    (ta : IArray) :
    (HloSharding.mk r m true ts ta []).IsReplicated = true ∧
      (HloSharding.mk r m true ts ta []).IsTileMaximal = true := by
  constructor <;> rfl

/-- Claim C10: the sharding returned by `Replicate()` satisfies
`IsReplicated() == true`, `IsTileMaximal() == true` and
`IsTuple() == false`: a replicated sharding is also classified as
tile-maximal. -/
theorem claim_c10_replicate_predicates :
    HloSharding.Replicate.IsReplicated = true ∧
      HloSharding.Replicate.IsTileMaximal = true ∧
      HloSharding.Replicate.IsTuple = false := by
  refine ⟨rfl, rfl, rfl⟩

/-- Claim C4 counterexample: a tiled sharding with an empty tile assignment
and default tile shape compares equal, under `operator==`, to an empty
tuple sharding even though their variant tags differ — `operator==` does
not compare the `tuple_` flag, so the claim that two shardings with
different tags are never equal is false. -/
theorem claim_c4_counterexample :
    eqSharding (HloSharding.Tile defaultShape ⟨[0], []⟩)
        (HloSharding.TupleOf []) = true ∧
      tagOf (HloSharding.Tile defaultShape ⟨[0], []⟩) ≠
        tagOf (HloSharding.TupleOf []) := by
  constructor
  · rfl
  · decide

/-- Claim C4 (amended): `operator==` compares the `replicated_` and
`maximal_` flags, tile-shape compatibility (not deep shape metadata or
object identity), the tile-assignment contents, and the tuple children
element-wise — but not the `tuple_` flag itself, so two shardings with
different tags can compare equal in the degenerate case of an empty tuple
against an empty tiled sharding with a compatible tile shape. -/
theorem claim_c4_equality_structure (a b : HloSharding) :
    eqSharding a b = true ↔
      (a.replicated_ = b.replicated_ ∧ a.maximal_ = b.maximal_ ∧
        compatible a.tile_shape_ b.tile_shape_ = true ∧
        a.tile_assignment_ = b.tile_assignment_ ∧
        List.Forall₂ (fun x y => eqSharding x y = true)
          a.tuple_elements_ b.tuple_elements_) := by
  obtain ⟨r1, m1, t1, ts1, ta1, es1⟩ := a
  obtain ⟨r2, m2, t2, ts2, ta2, es2⟩ := b
  simp [eqSharding, HloSharding.replicated_, HloSharding.maximal_,
    HloSharding.tile_shape_, HloSharding.tile_assignment_,
    HloSharding.tuple_elements_, eqShardingList_iff, and_assoc]

theorem fromProtoList_toProtoList (els : List HloSharding)
    (h : ∀ s ∈ els, FromProto (ToProto s) = some s) :
    fromProtoList (toProtoList els) = some els := by
  induction els with
  | nil => rfl
  | cons a as ih =>
    simp only [toProtoList, fromProtoList, h a (by simp),
      ih (fun x hx => h x (by simp [hx]))]

theorem fromProto_toProto (s : HloSharding) (hc : Constructible s) :
    FromProto (ToProto s) = some s := by
  induction hc with
  | replicate => rfl
  | assignDevice d => rfl
  | tile ts ta h =>
    have hwf : ta.data.length = ta.dims.prod := h
    simp [ToProto, FromProto, HloSharding.Tile, hwf]
  | tuple els h ih =>
    simp [ToProto, FromProto, HloSharding.TupleOf,
      fromProtoList_toProtoList els ih]

/-- Claim C1: for every constructible sharding `s` (replicated,
tile-maximal, tiled, and nested tuple), `FromProto(ToProto(s))` succeeds
and returns a sharding equal to `s` under `operator==`. -/
theorem claim_c1_proto_roundtrip (s : HloSharding) (hc : Constructible s) :
    ∃ t, FromProto (ToProto s) = some t ∧ eqSharding t s = true :=
  ⟨s, fromProto_toProto s hc, eqSharding_refl s⟩

/-- Witness for claim C1 at a nested tuple containing all four variants. -/
theorem claim_c1_witness :
    ∃ t,
      FromProto (ToProto (HloSharding.TupleOf
        [HloSharding.Replicate, HloSharding.AssignDevice 3,
         HloSharding.Tile (Shape.array 1 [2, 2] [1, 0]) ⟨[2, 1], [0, 1]⟩,
         HloSharding.TupleOf []])) = some t ∧
      eqSharding t (HloSharding.TupleOf
        [HloSharding.Replicate, HloSharding.AssignDevice 3,
         HloSharding.Tile (Shape.array 1 [2, 2] [1, 0]) ⟨[2, 1], [0, 1]⟩,
         HloSharding.TupleOf []]) = true :=
  claim_c1_proto_roundtrip _ (by
    refine Constructible.tuple _ ?_
    intro x hx
    simp only [List.mem_cons, List.not_mem_nil, or_false] at hx
    rcases hx with h | h | h | h <;> subst h
    · exact Constructible.replicate
    · exact Constructible.assignDevice 3
    · exact Constructible.tile _ _ (by simp [IArray.wf])
    · exact Constructible.tuple [] (by simp))

mutual

theorem hashShape_compat : ∀ s1 s2, compatible s1 s2 = true →
    hashShape s1 = hashShape s2
  | .array t1 d1 l1, .array t2 d2 l2, h => by
    simp only [compatible, Bool.and_eq_true, beq_iff_eq] at h
    simp [hashShape, h.1, h.2]
  | .tup e1, .tup e2, h => by
    simp only [compatible] at h
    simp [hashShape, hashShapeList_compat e1 e2 h]
  | .array _ _ _, .tup _, h => by simp [compatible] at h
  | .tup _, .array _ _ _, h => by simp [compatible] at h

theorem hashShapeList_compat : ∀ l1 l2, compatibleList l1 l2 = true →
    hashShapeList l1 = hashShapeList l2
  | [], [], _ => rfl
  | a :: as, b :: bs, h => by
    simp only [compatibleList, Bool.and_eq_true] at h
    simp [hashShapeList, hashShape_compat a b h.1,
      hashShapeList_compat as bs h.2]
  | [], _ :: _, h => by simp [compatibleList] at h
  | _ :: _, [], h => by simp [compatibleList] at h

end

mutual

theorem hash_eq_of_eqSharding : ∀ a b, eqSharding a b = true →
    Hash a = Hash b
  | .mk r1 m1 t1 ts1 ta1 es1, .mk r2 m2 t2 ts2 ta2 es2, h => by
    simp only [eqSharding, Bool.and_eq_true, beq_iff_eq] at h
    obtain ⟨⟨⟨⟨hr, hm⟩, hc⟩, hta⟩, hes⟩ := h
    simp [Hash, hr, hm, hta, hashShape_compat _ _ hc,
      hashList_eq_of_eqList es1 es2 hes]

theorem hashList_eq_of_eqList : ∀ l1 l2, eqShardingList l1 l2 = true →
    hashList l1 = hashList l2
  | [], [], _ => rfl
  | a :: as, b :: bs, h => by
    simp only [eqShardingList, Bool.and_eq_true] at h
    simp [hashList, hash_eq_of_eqSharding a b h.1,
      hashList_eq_of_eqList as bs h.2]
  | [], _ :: _, h => by simp [eqShardingList] at h
  | _ :: _, [], h => by simp [eqShardingList] at h

end

/-- Claim C5: the hash is consistent with structural equality — for every
pair of shardings, `a == b` implies `Hash(a) == Hash(b)`. -/
theorem claim_c5_hash_consistent (a b : HloSharding)
    (h : eqSharding a b = true) : Hash a = Hash b :=
  hash_eq_of_eqSharding a b h

/-- Witness for claim C5 at two tiled shardings that differ only in layout
metadata and therefore compare equal. -/
theorem claim_c5_witness :
    Hash (HloSharding.Tile (Shape.array 1 [2] [0]) ⟨[2], [0, 1]⟩) =
      Hash (HloSharding.Tile (Shape.array 1 [2] [7]) ⟨[2], [0, 1]⟩) :=
  claim_c5_hash_consistent _ _ (by rfl)

/-- Claim C8: for every non-tuple sharding `s` and tuple shape, promoting
then collapsing is the identity — `ExtractSingleSharding` applied to the
result of `GetTupleSharding(s, shape)` returns a value equal to `s` under
`operator==`, not the empty optional. -/
theorem claim_c8_promote_collapse (s : HloSharding) (shape : Shape)
    (h : s.tuple_ = false) :
    ∃ t u, GetTupleSharding s shape = some t ∧
      ExtractSingleSharding t = some u ∧ eqSharding u s = true := by
  refine ⟨HloSharding.TupleOf (List.replicate (RequiredLeaves shape) s), s,
    ?_, ?_, eqSharding_refl s⟩
  · simp [GetTupleSharding, h]
  · obtain ⟨k, hk⟩ : ∃ k, RequiredLeaves shape = k + 1 := by
      have h1 : 1 ≤ RequiredLeaves shape := le_max_left _ _
      exact ⟨RequiredLeaves shape - 1, by omega⟩
    simp only [hk, List.replicate_succ, ExtractSingleSharding,
      HloSharding.TupleOf, HloSharding.tuple_, HloSharding.tuple_elements_,
      if_pos]
    rw [if_pos]
    simp only [List.all_eq_true]
    intro x hx
    rw [List.eq_of_mem_replicate hx]
    exact eqSharding_refl s

/-- Witness for claim C8 at a single-device sharding and a two-leaf tuple
shape. -/
theorem claim_c8_witness :
    ∃ t u,
      GetTupleSharding (HloSharding.AssignDevice 2)
        (Shape.tup [Shape.array 1 [2] [], Shape.array 1 [3] []]) = some t ∧
      ExtractSingleSharding t = some u ∧
      eqSharding u (HloSharding.AssignDevice 2) = true :=
  claim_c8_promote_collapse _ _ rfl

/-- Claim C6: `UniqueDevice()` succeeds if and only if the constructible
sharding is tile-maximal and not replicated (and not a tuple); in the
success case it returns the single assigned device id, and in every other
case it fails rather than returning a device. -/
theorem claim_c6_unique_device (s : HloSharding) (hc : Constructible s) :
    ((UniqueDevice s).isSome = true ↔
      (s.IsTileMaximal = true ∧ s.IsReplicated = false ∧
        s.IsTuple = false)) ∧
      (∀ d, UniqueDevice s = some d → s = HloSharding.AssignDevice d) := by
  induction hc with
  | replicate =>
    refine ⟨by simp [UniqueDevice, HloSharding.Replicate,
      HloSharding.IsReplicated], ?_⟩
    intro d hd
    simp [UniqueDevice, HloSharding.Replicate] at hd
  | assignDevice d =>
    refine ⟨by simp [UniqueDevice, HloSharding.AssignDevice,
      HloSharding.IsTileMaximal, HloSharding.IsReplicated,
      HloSharding.IsTuple, HloSharding.tuple_], ?_⟩
    intro d' hd
    simp only [UniqueDevice, HloSharding.AssignDevice, if_neg, if_pos,
      Bool.false_eq_true, if_false, List.head?] at hd
    simp only [Option.some.injEq] at hd
    rw [hd]
  | tile ts ta h =>
    refine ⟨by simp [UniqueDevice, HloSharding.Tile,
      HloSharding.IsTileMaximal], ?_⟩
    intro d hd
    simp [UniqueDevice, HloSharding.Tile] at hd
  | tuple els h ih =>
    refine ⟨by simp [UniqueDevice, HloSharding.TupleOf, HloSharding.IsTuple,
      HloSharding.tuple_], ?_⟩
    intro d hd
    simp [UniqueDevice, HloSharding.TupleOf] at hd

/-- Witness for claim C6 at a single-device sharding. -/
theorem claim_c6_witness :
    ((UniqueDevice (HloSharding.AssignDevice 4)).isSome = true ↔
      ((HloSharding.AssignDevice 4).IsTileMaximal = true ∧
        (HloSharding.AssignDevice 4).IsReplicated = false ∧
        (HloSharding.AssignDevice 4).IsTuple = false)) ∧
      (∀ d, UniqueDevice (HloSharding.AssignDevice 4) = some d →
        HloSharding.AssignDevice 4 = HloSharding.AssignDevice d) :=
  claim_c6_unique_device _ (Constructible.assignDevice 4)

theorem scanForDevice_spec : ∀ (l : List Int) (d : Int) (p : Nat),
    scanForDevice l d = some p → p < l.length ∧ l[p]? = some d
  | [], d, p, h => by simp [scanForDevice] at h
  | a :: as, d, p, h => by
    simp only [scanForDevice] at h
    by_cases ha : a = d
    · rw [if_pos ha] at h
      obtain rfl : (0 : Nat) = p := by simpa using h
      simp [ha]
    · rw [if_neg ha] at h
      cases hs : scanForDevice as d with
      | none => rw [hs] at h; simp at h
      | some q =>
        rw [hs] at h
        simp at h
        obtain ⟨hlt, hget⟩ := scanForDevice_spec as d q hs
        subst h
        simp only [List.length_cons, List.getElem?_cons_succ]
        exact ⟨by omega, hget⟩

theorem scanForDevice_isSome : ∀ (l : List Int) (d : Int), d ∈ l →
    ∃ p, scanForDevice l d = some p
  | a :: as, d, h => by
    simp only [scanForDevice]
    by_cases ha : a = d
    · exact ⟨0, by rw [if_pos ha]⟩
    · have hm : d ∈ as := by
        rcases List.mem_cons.mp h with h1 | h1
        · exact absurd h1.symm ha
        · exact h1
      obtain ⟨p, hp⟩ := scanForDevice_isSome as d hm
      exact ⟨p + 1, by rw [if_neg ha, hp]; rfl⟩

theorem unflattenIndex_length : ∀ (ds : List Nat) (p : Nat),
    (unflattenIndex ds p).length = ds.length
  | [], _ => rfl
  | _ :: ds, p => by simp [unflattenIndex, unflattenIndex_length ds]

theorem flattenIndex_unflattenIndex : ∀ (ds : List Nat) (p : Nat),
    p < ds.prod → flattenIndex ds (unflattenIndex ds p) = p
  | [], p, h => by
    simp only [List.prod_nil, Nat.lt_one_iff] at h
    simp [unflattenIndex, flattenIndex, h]
  | dd :: ds, p, h => by
    have hP : 0 < ds.prod := by
      rcases Nat.eq_zero_or_pos ds.prod with h0 | h0
      · rw [List.prod_cons, h0, Nat.mul_zero] at h; omega
      · exact h0
    simp only [unflattenIndex, flattenIndex]
    rw [flattenIndex_unflattenIndex ds (p % ds.prod) (Nat.mod_lt _ hP)]
    have hh := Nat.div_add_mod p ds.prod
    rw [Nat.mul_comm ds.prod (p / ds.prod)] at hh
    exact hh

theorem unflattenIndex_lt : ∀ (ds : List Nat) (p : Nat), p < ds.prod →
    List.Forall₂ (fun i dd => i < dd) (unflattenIndex ds p) ds
  | [], p, _ => by simp [unflattenIndex]
  | dd :: ds, p, h => by
    have hP : 0 < ds.prod := by
      rcases Nat.eq_zero_or_pos ds.prod with h0 | h0
      · rw [List.prod_cons, h0, Nat.mul_zero] at h; omega
      · exact h0
    rw [List.prod_cons] at h
    refine List.Forall₂.cons ?_ (unflattenIndex_lt ds _ (Nat.mod_lt _ hP))
    exact (Nat.div_lt_iff_lt_mul hP).mpr h

/-- Claim C2: for every tiled sharding and every device id `d` that appears
exactly once in its tile assignment, `DeviceForTileIndex` applied to
`TileIndexForDevice(d)` returns `d`. -/
theorem claim_c2_tile_index_roundtrip (ts : Shape) (ta : IArray) (d : Int)
    (hwf : ta.wf) (hcount : ta.data.count d = 1) :
    ∃ idx, TileIndexForDevice (HloSharding.Tile ts ta) d = some idx ∧
      DeviceForTileIndex (HloSharding.Tile ts ta) idx = some d := by
  have hd : d ∈ ta.data := by
    by_contra hmem
    rw [List.count_eq_zero_of_not_mem hmem] at hcount
    omega
  obtain ⟨p, hp⟩ := scanForDevice_isSome ta.data d hd
  obtain ⟨hlt, hget⟩ := scanForDevice_spec ta.data d p hp
  refine ⟨unflattenIndex ta.dims p, ?_, ?_⟩
  · simp [TileIndexForDevice, HloSharding.Tile, hp]
  · have hprod : p < ta.dims.prod := by
      have := hwf
      unfold IArray.wf at this
      omega
    simp only [DeviceForTileIndex, HloSharding.Tile, if_neg, if_pos,
      Bool.false_eq_true, if_false]
    rw [flattenIndex_unflattenIndex ta.dims p hprod]
    exact hget

/-- Witness for claim C2 at a one-dimensional two-tile assignment. -/
theorem claim_c2_witness :
    ∃ idx,
      TileIndexForDevice
        (HloSharding.Tile defaultShape ⟨[2], [5, 7]⟩) 7 = some idx ∧
      DeviceForTileIndex
        (HloSharding.Tile defaultShape ⟨[2], [5, 7]⟩) idx = some 7 :=
  claim_c2_tile_index_roundtrip _ _ 7 (by simp [IArray.wf]) (by decide)

theorem getD_zipWith (f : Nat → Nat → Nat) :
    ∀ (as bs : List Nat) (i : Nat), i < as.length → i < bs.length →
      (List.zipWith f as bs).getD i 0 = f (as.getD i 0) (bs.getD i 0)
  | _ :: _, _ :: _, 0, _, _ => rfl
  | _ :: as, _ :: bs, i + 1, h1, h2 => by
    simp only [List.zipWith_cons_cons, List.getD_cons_succ]
    exact getD_zipWith f as bs i (by simpa using h1) (by simpa using h2)
  | [], _, i, h1, _ => by simp at h1
  | _ :: _, [], i, _, h2 => by simp at h2

theorem getD_zipWith3 (f : Nat → Nat → Nat → Nat) :
    ∀ (as bs cs : List Nat) (i : Nat), i < as.length → i < bs.length →
      i < cs.length →
      (zipWith3 f as bs cs).getD i 0 =
        f (as.getD i 0) (bs.getD i 0) (cs.getD i 0)
  | _ :: _, _ :: _, _ :: _, 0, _, _, _ => rfl
  | _ :: as, _ :: bs, _ :: cs, i + 1, h1, h2, h3 => by
    simp only [zipWith3, List.getD_cons_succ]
    exact getD_zipWith3 f as bs cs i (by simpa using h1) (by simpa using h2)
      (by simpa using h3)
  | [], _, _, i, h1, _, _ => by simp at h1
  | _ :: _, [], _, i, _, h2, _ => by simp at h2
  | _ :: _, _ :: _, [], i, _, _, h3 => by simp at h3

theorem zipWith3_length (f : Nat → Nat → Nat → Nat) :
    ∀ (as bs cs : List Nat),
      (zipWith3 f as bs cs).length =
        min (min as.length bs.length) cs.length
  | [], bs, cs => by simp [zipWith3]
  | _ :: _, [], cs => by simp [zipWith3]
  | _ :: _, _ :: _, [] => by simp [zipWith3]
  | _ :: as, _ :: bs, _ :: cs => by
    simp only [zipWith3, List.length_cons, zipWith3_length f as bs cs]
    omega

theorem forall₂_lt_getD {as bs : List Nat}
    (h : List.Forall₂ (fun x y => x < y) as bs) :
    ∀ i, i < as.length → as.getD i 0 < bs.getD i 0 := by
  induction h with
  | nil => intro i hi; simp at hi
  | cons ha _ ih =>
    intro i hi
    cases i with
    | zero => simpa using ha
    | succ j =>
      simp only [List.getD_cons_succ]
      exact ih j (by simpa using hi)

theorem tile_extent_bound (idxv dcount t v : Nat) (ht : 0 < t)
    (hidx : idxv < dcount) (hcov : dcount ≤ natCeilDiv v t) :
    idxv * t < v := by
  unfold natCeilDiv at hcov
  have h1 : (v + t - 1) / t * t ≤ v + t - 1 := Nat.div_mul_le_self _ _
  have h2 : (idxv + 1) * t ≤ (v + t - 1) / t * t :=
    Nat.mul_le_mul_right t (by omega)
  have h3 : (idxv + 1) * t = idxv * t + t := by ring
  omega

/-- Claim C3: for every device `d` in a valid tiled sharding applied to a
value shape, the tile offset is the tile index multiplied component-wise by
the tile shape, the tile limit is `min(offset[i] + tile_shape[i],
value_shape[i])`, and component-wise `offset <= limit <=` the value
shape's extents. -/
theorem claim_c3_tile_extents (et : Nat) (tds lay : List Nat) (ta : IArray)
    (vdims : List Nat) (d : Int)
    (hwf : ta.wf)
    (hrank1 : ta.dims.length = tds.length)
    (hrank2 : tds.length = vdims.length)
    (hpos : ∀ i, i < tds.length → 0 < tds.getD i 0)
    (hcover : ∀ i, i < ta.dims.length →
      ta.dims.getD i 0 ≤ natCeilDiv (vdims.getD i 0) (tds.getD i 0))
    (hd : d ∈ ta.data) :
    ∃ idx off lim,
      TileIndexForDevice (HloSharding.Tile (Shape.array et tds lay) ta) d =
        some idx ∧
      TileOffsetForDevice (HloSharding.Tile (Shape.array et tds lay) ta)
        vdims d = some off ∧
      TileLimitForDevice (HloSharding.Tile (Shape.array et tds lay) ta)
        vdims d = some lim ∧
      off.length = vdims.length ∧ lim.length = vdims.length ∧
      ∀ i, i < vdims.length →
        off.getD i 0 = idx.getD i 0 * tds.getD i 0 ∧
        lim.getD i 0 = min (off.getD i 0 + tds.getD i 0) (vdims.getD i 0) ∧
        off.getD i 0 ≤ lim.getD i 0 ∧
        lim.getD i 0 ≤ vdims.getD i 0 := by
  obtain ⟨p, hp⟩ := scanForDevice_isSome ta.data d hd
  obtain ⟨hplt, _⟩ := scanForDevice_spec ta.data d p hp
  have hprod : p < ta.dims.prod := by
    have hw : ta.data.length = ta.dims.prod := hwf
    omega
  set idx := unflattenIndex ta.dims p with hidxdef
  have hidxlen : idx.length = vdims.length := by
    rw [hidxdef, unflattenIndex_length, hrank1, hrank2]
  set off := List.zipWith (fun i t => i * t) idx tds with hoffdef
  have hofflen : off.length = vdims.length := by
    rw [hoffdef, List.length_zipWith, hidxlen, ← hrank2]
    omega
  set lim := zipWith3 (fun o t v => min (o + t) v) off tds vdims
    with hlimdef
  have hlimlen : lim.length = vdims.length := by
    rw [hlimdef, zipWith3_length, hofflen, ← hrank2]
    omega
  have hbounds := unflattenIndex_lt ta.dims p hprod
  refine ⟨idx, off, lim, ?_, ?_, ?_, hofflen, hlimlen, ?_⟩
  · simp [TileIndexForDevice, HloSharding.Tile, hp]
  · simp [TileOffsetForDevice, TileIndexForDevice, HloSharding.Tile, hp,
      shapeDims]
  · simp [TileLimitForDevice, TileOffsetForDevice, TileIndexForDevice,
      HloSharding.Tile, hp, shapeDims]
  · intro i hi
    have hit : i < tds.length := by omega
    have hii : i < idx.length := by omega
    have hof : off.getD i 0 = idx.getD i 0 * tds.getD i 0 :=
      getD_zipWith _ idx tds i hii hit
    have hlm : lim.getD i 0 =
        min (off.getD i 0 + tds.getD i 0) (vdims.getD i 0) :=
      getD_zipWith3 _ off tds vdims i (by omega) hit hi
    have hidxlt : idx.getD i 0 < ta.dims.getD i 0 :=
      forall₂_lt_getD hbounds i (by rw [unflattenIndex_length]; omega)
    have hlt : idx.getD i 0 * tds.getD i 0 < vdims.getD i 0 :=
      tile_extent_bound _ _ _ _ (hpos i hit) hidxlt
        (hcover i (by rw [hrank1]; omega))
    refine ⟨hof, hlm, ?_, ?_⟩
    · rw [hlm, hof]; omega
    · rw [hlm]; omega

/-- Witness for claim C3 at the spec's worked example: tile shape
`{2, 2}`, a two-by-one tile assignment, and a `{3, 2}` value shape. -/
theorem claim_c3_witness :
    ∃ idx off lim,
      TileIndexForDevice
        (HloSharding.Tile (Shape.array 1 [2, 2] []) ⟨[2, 1], [0, 1]⟩) 1 =
        some idx ∧
      TileOffsetForDevice
        (HloSharding.Tile (Shape.array 1 [2, 2] []) ⟨[2, 1], [0, 1]⟩)
        [3, 2] 1 = some off ∧
      TileLimitForDevice
        (HloSharding.Tile (Shape.array 1 [2, 2] []) ⟨[2, 1], [0, 1]⟩)
        [3, 2] 1 = some lim ∧
      off.length = 2 ∧ lim.length = 2 ∧
      ∀ i, i < 2 →
        off.getD i 0 = idx.getD i 0 * [2, 2].getD i 0 ∧
        lim.getD i 0 =
          min (off.getD i 0 + [2, 2].getD i 0) ([3, 2].getD i 0) ∧
        off.getD i 0 ≤ lim.getD i 0 ∧
        lim.getD i 0 ≤ [3, 2].getD i 0 := by
  have h := claim_c3_tile_extents 1 [2, 2] [] ⟨[2, 1], [0, 1]⟩ [3, 2] 1
    (by simp [IArray.wf]) (by decide) (by decide)
    (by decide) (by decide) (by decide)
  simpa using h

mutual

theorem validate_false_of_bad : ∀ (s : HloSharding) (shape : Shape)
    (nd : Int), (∃ d ∈ referencedDevices s, nd ≤ d) →
    validate s shape nd = false
  | .mk _ _ true _ _ els, shape, nd, ⟨d, hd, hnd⟩ => by
    simp only [referencedDevices, if_pos] at hd
    have hlist := validateList_false_of_bad els (shapeLeaves shape) nd
      ⟨d, hd, hnd⟩
    simp [validate, hlist]
  | .mk true _ false _ _ _, _, _, ⟨d, hd, _⟩ => by
    simp [referencedDevices] at hd
  | .mk false true false _ ta _, shape, nd, ⟨d, hd, hnd⟩ => by
    simp only [referencedDevices, if_neg, if_pos, Bool.false_eq_true,
      if_false] at hd
    have hall : ta.data.all (fun x => decide (x < nd)) = false := by
      rw [List.all_eq_false]
      exact ⟨d, hd, by simp; omega⟩
    simp [validate, hall]
  | .mk false false false _ ta _, shape, nd, ⟨d, hd, hnd⟩ => by
    simp only [referencedDevices, if_neg, Bool.false_eq_true,
      if_false] at hd
    have hall : ta.data.all (fun x => decide (0 ≤ x) && decide (x < nd)) =
        false := by
      rw [List.all_eq_false]
      exact ⟨d, hd, by simp; omega⟩
    simp [validate, hall]

theorem validateList_false_of_bad : ∀ (els : List HloSharding)
    (shs : List Shape) (nd : Int),
    (∃ d ∈ referencedDevicesList els, nd ≤ d) →
    validateList els shs nd = false
  | [], _, _, ⟨d, hd, _⟩ => by simp [referencedDevicesList] at hd
  | _ :: _, [], _, _ => by simp [validateList]
  | s :: ss, sh :: shs, nd, ⟨d, hd, hnd⟩ => by
    simp only [referencedDevicesList, List.mem_append] at hd
    rcases hd with h | h
    · simp [validateList, validate_false_of_bad s sh nd ⟨d, h, hnd⟩]
    · simp [validateList, validateList_false_of_bad ss shs nd ⟨d, h, hnd⟩]

end

/-- Claim C7: `Validate(shape, num_devices)` returns an error whenever any
device id referenced by the sharding is `>= num_devices`, and, for a tiled
sharding, whenever any referenced device id is negative; it returns an
error (not success) for every such sharding. -/
theorem claim_c7_validate_rejects (s : HloSharding) (shape : Shape)
    (nd : Int) :
    ((∃ d ∈ referencedDevices s, nd ≤ d) → validate s shape nd = false) ∧
      (s.tuple_ = false → s.replicated_ = false → s.maximal_ = false →
        (∃ d ∈ referencedDevices s, d < 0) → validate s shape nd = false) := by
  refine ⟨validate_false_of_bad s shape nd, ?_⟩
  obtain ⟨r, m, tup, ts, ta, els⟩ := s
  intro htup hr hm hbad
  simp only [HloSharding.tuple_] at htup
  simp only [HloSharding.replicated_] at hr
  simp only [HloSharding.maximal_] at hm
  subst htup hr hm
  obtain ⟨d, hd, hneg⟩ := hbad
  simp only [referencedDevices, Bool.false_eq_true, if_false] at hd
  have hall : ta.data.all (fun x => decide (0 ≤ x) && decide (x < nd)) =
      false := by
    rw [List.all_eq_false]
    exact ⟨d, hd, by simp; omega⟩
  simp [validate, hall]

/-- Witness for claim C7: a single-device sharding whose device id exceeds
the device count, and a tiled sharding referencing a negative device
id. -/
theorem claim_c7_witness :
    validate (HloSharding.AssignDevice 5) defaultShape 3 = false ∧
      validate (HloSharding.Tile defaultShape ⟨[1], [-1]⟩) defaultShape 3 =
        false :=
  ⟨(claim_c7_validate_rejects _ _ _).1 ⟨5, by decide, by decide⟩,
    (claim_c7_validate_rejects _ _ _).2 rfl rfl rfl ⟨-1, by decide, by decide⟩⟩
